import Mathlib

/-!
Verification development for the lines-generator repository.

The program draws evenly spaced vertical fold-guide lines into PDF pages.
We model a drawn line as its dash pattern, endpoints and thickness, a page
as its size plus the ordered list of lines drawn onto it, and the two
section drawers (quadrant mode and full-page mode) as explicit state
transformers over a document (a list of pages).  Numbers are rationals:
all arithmetic the program performs on coordinates is exact on the inputs
considered (divisions by counts, halvings).
-/

namespace LinesGen

/-- A single `page.drawLine` call: dash pattern, start/end coordinates,
thickness. -/
structure Line where
  dashArray : List ℚ
  startX : ℚ
  startY : ℚ
  endX : ℚ
  endY : ℚ
  thickness : ℚ
deriving DecidableEq

/-- A PDF page: its size and the ordered list of lines drawn onto it. -/
structure Page where
  width : ℚ
  height : ℚ
  content : List Line
deriving DecidableEq

/-- Default line, used only as the default argument of `List.getD`. -/
def emptyLine : Line := ⟨[], 0, 0, 0, 0, 0⟩

/-- Default page, used only as the default argument of `List.getD`. -/
def emptyPage : Page := ⟨0, 0, []⟩

/-- The `drawCutLine` helper: a dashed `[10, 10]` zero-thickness line. -/
def drawCutLine (sx sy ex ey : ℚ) : Line := ⟨[10, 10], sx, sy, ex, ey, 0⟩

/-- The list of fold lines emitted by `drawSection`'s loop:
`lineSpacing = width / (numCenterLines + 1)`; line `lineIndex` (0-based,
while `lineIndex < numCenterLines`) is vertical at
`x + (lineIndex + 1) * lineSpacing` spanning `y` to `y + height`; even
indices get the dash-dot pattern `[4, 2, 1, 2]` (mountain fold), odd
indices the dash pattern `[4, 1]` (valley fold). -/
def sectionLines (x y width height : ℚ) (numCenterLines : ℤ) : List Line :=
  let lineSpacing := width / ((numCenterLines : ℚ) + 1)
  (List.range numCenterLines.toNat).map fun (lineIndex : ℕ) =>
    let lineX := x + ((lineIndex : ℚ) + 1) * lineSpacing
    if lineIndex % 2 = 0 then
      ⟨[4, 2, 1, 2], lineX, y, lineX, y + height, 0⟩
    else
      ⟨[4, 1], lineX, y, lineX, y + height, 0⟩

/-- The function `drawSection` appends the section's fold lines to the page's content
(the page object is mutated in the source; here the updated page is
returned). -/
def drawSection (x y width height : ℚ) (numCenterLines : ℤ) (page : Page) :
    Page :=
  ⟨page.width, page.height, page.content ++ sectionLines x y width height numCenterLines⟩

/-- In-place update of the page at index `i` of a document. -/
def modifyPage : List Page → ℕ → (Page → Page) → List Page
  | [], _, _ => []
  | p :: ps, 0, f => f p :: ps
  | p :: ps, i + 1, f => p :: modifyPage ps i f

namespace Quadrant

/-- The quadrant-mode section drawer's state: the document built so far,
the running section index, and the (optional) index of the current page
in the document. -/
structure DrawerState where
  doc : List Page
  currentSectionIndex : ℕ
  currentPage : Option ℕ
deriving DecidableEq

/-- The quadrant variant of `createSectionedPage`: a new page of the configured
size with the six dashed cut lines: left border, right border, top border,
bottom border, vertical middle line, horizontal center line. -/
def createSectionedPage (pageWidth pageHeight : ℚ) : Page :=
  ⟨pageWidth, pageHeight,
    [drawCutLine (1/2) 0 (1/2) pageHeight,
     drawCutLine (pageWidth - 1/2) 0 (pageWidth - 1/2) pageHeight,
     drawCutLine 0 pageHeight pageWidth pageHeight,
     drawCutLine 0 0 pageWidth 0,
     drawCutLine (pageWidth/2) 0 (pageWidth/2) pageHeight,
     drawCutLine 0 (pageHeight/2) pageWidth (pageHeight/2)]⟩

/-- The tail of `drawNextSection` after the `switch`: the
`currentPage === undefined` guard, the `drawSection` call into a
half-width, half-height region at the selected position, and the section
index increment. -/
def finishSection (pageWidth pageHeight : ℚ) (numCenterLines : ℤ)
    (idx : ℕ) (doc : List Page) (cur : Option ℕ) (px py : ℚ) :
    Except String DrawerState :=
  match cur with
  | none => .error "Current page is undefined"
  | some p =>
    .ok ⟨modifyPage doc p
          (drawSection px py (pageWidth/2) (pageHeight/2) numCenterLines),
        idx + 1, some p⟩

/-- The quadrant variant of `drawNextSection`: switch on
`currentSectionIndex % 4`; case 0 allocates a new sectioned page and draws
top-left, cases 1-3 reuse the current page at top-right, bottom-left,
bottom-right; the impossible default throws. -/
def drawNextSection (pageWidth pageHeight : ℚ) (numCenterLines : ℤ)
    (st : DrawerState) : Except String DrawerState :=
  match st.currentSectionIndex % 4 with
  | 0 => finishSection pageWidth pageHeight numCenterLines
      st.currentSectionIndex
      (st.doc ++ [createSectionedPage pageWidth pageHeight])
      (some st.doc.length) 0 (pageHeight/2)
  | 1 => finishSection pageWidth pageHeight numCenterLines
      st.currentSectionIndex st.doc st.currentPage (pageWidth/2) (pageHeight/2)
  | 2 => finishSection pageWidth pageHeight numCenterLines
      st.currentSectionIndex st.doc st.currentPage 0 0
  | 3 => finishSection pageWidth pageHeight numCenterLines
      st.currentSectionIndex st.doc st.currentPage (pageWidth/2) 0
  | _ + 4 => .error "No case found for page section"

/-- Fresh drawer: empty document, section index 0, no current page. -/
def initState : DrawerState := ⟨[], 0, none⟩

/-- The driver loop: feed each line count of the list to
`drawNextSection` in order. -/
def runFrom (pageWidth pageHeight : ℚ) :
    List ℤ → DrawerState → Except String DrawerState
  | [], st => .ok st
  | n :: ns, st =>
    match drawNextSection pageWidth pageHeight n st with
    | .error e => .error e
    | .ok st' => runFrom pageWidth pageHeight ns st'

/-- Run the drawer from a fresh state on a list of line counts. -/
def run (pageWidth pageHeight : ℚ) (counts : List ℤ) :
    Except String DrawerState :=
  runFrom pageWidth pageHeight counts initState

/-- A state is reachable when some sequence of calls from a fresh drawer
produces it. -/
def Reachable (pageWidth pageHeight : ℚ) (st : DrawerState) : Prop :=
  ∃ counts, run pageWidth pageHeight counts = .ok st

/-- Drawer invariant: a missing current page only at a page boundary, and
the current page index is in range. -/
def Inv (st : DrawerState) : Prop :=
  (st.currentPage = none → st.currentSectionIndex % 4 = 0) ∧
  ∀ p, st.currentPage = some p → p < st.doc.length

/-- The quadrant-origin mapping as written in the spec:
`{0 : (0, H/2), 1 : (W/2, H/2), 2 : (0, 0), 3 : (W/2, 0)}`. -/
def specQuadOrigin (pageWidth pageHeight : ℚ) : ℕ → ℚ × ℚ
  | 0 => (0, pageHeight / 2)
  | 1 => (pageWidth / 2, pageHeight / 2)
  | 2 => (0, 0)
  | _ => (pageWidth / 2, 0)

end Quadrant

namespace FullPage

/-- The full-page-mode drawer's state: the document built so far and the
(optional) index of the current page. -/
structure DrawerState where
  doc : List Page
  currentPage : Option ℕ
deriving DecidableEq

/-- The full-page variant of `createSectionedPage`: a new page of the
configured size with five dashed cut lines: left border, right border,
top border (at `pageHeight - 0.5`), bottom border, horizontal center
line. -/
def createSectionedPage (pageWidth pageHeight : ℚ) : Page :=
  ⟨pageWidth, pageHeight,
    [drawCutLine (1/2) 0 (1/2) pageHeight,
     drawCutLine (pageWidth - 1/2) 0 (pageWidth - 1/2) pageHeight,
     drawCutLine 0 (pageHeight - 1/2) pageWidth (pageHeight - 1/2),
     drawCutLine 0 0 pageWidth 0,
     drawCutLine 0 (pageHeight/2) pageWidth (pageHeight/2)]⟩

/-- The full-page variant of `drawNextSection`: always allocates a new
sectioned page, then (after the never-firing `undefined` guard) draws the
section at origin `(0, 0)` with the full page width and height. -/
def drawNextSection (pageWidth pageHeight : ℚ) (numCenterLines : ℤ)
    (st : DrawerState) : Except String DrawerState :=
  let doc := st.doc ++ [createSectionedPage pageWidth pageHeight]
  let currentPage : Option ℕ := some st.doc.length
  match currentPage with
  | none => .error "Current page is undefined"
  | some p =>
    .ok ⟨modifyPage doc p (drawSection 0 0 pageWidth pageHeight numCenterLines),
        some p⟩

end FullPage

/-- A configuration entry: either a fixed line count or a
`{minNumLines, maxNumLines, skipInterval}` range. -/
inductive CenterLineSection where
  | numLines (n : ℤ)
  | range (minNumLines maxNumLines skipInterval : ℤ)
deriving DecidableEq

/-- The driver's range loop
`for (n = minNumLines; n <= maxNumLines; n += skipInterval)`, embedded
with explicit fuel: `none` means the loop has not finished within `fuel`
iterations. -/
def expandRangeFuel : ℕ → ℤ → ℤ → ℤ → Option (List ℤ)
  | 0, _, _, _ => none
  | fuel + 1, cur, maxN, step =>
    if cur ≤ maxN then
      match expandRangeFuel fuel (cur + step) maxN step with
      | none => none
      | some l => some (cur :: l)
    else some []

/-- The count sequence of one configuration entry. -/
def expandSectionFuel (fuel : ℕ) : CenterLineSection → Option (List ℤ)
  | .numLines n => some [n]
  | .range a b s => expandRangeFuel fuel a b s

/-- The count sequence of a whole configuration, in declaration order. -/
def expandConfigFuel (fuel : ℕ) : List CenterLineSection → Option (List ℤ)
  | [] => some []
  | s :: rest =>
    match expandSectionFuel fuel s, expandConfigFuel fuel rest with
    | some l, some ls => some (l ++ ls)
    | _, _ => none

/-- The range loop terminates and produces `l`. -/
def RangeExpands (minN maxN step : ℤ) (l : List ℤ) : Prop :=
  ∃ fuel, expandRangeFuel fuel minN maxN step = some l

/-- The driver's expansion of a configuration terminates and produces
`l`. -/
def ConfigExpands (cfg : List CenterLineSection) (l : List ℤ) : Prop :=
  ∃ fuel, expandConfigFuel fuel cfg = some l

/-- The arithmetic progression the spec describes:
`[minN, minN + step, minN + 2 * step, ...]` truncated at the last value
`≤ maxN`, empty when `minN > maxN`. -/
def specRange (minN maxN step : ℤ) : List ℤ :=
  if maxN < minN then []
  else (List.range ((maxN - minN) / step + 1).toNat).map
    fun (k : ℕ) => minN + (k : ℤ) * step

/-- A configuration entry whose expansion the driver can finish: a fixed
count, or a range with positive step, or an empty range. -/
def sectionWellFormed : CenterLineSection → Bool
  | .numLines _ => true
  | .range a b s => decide (1 ≤ s) || decide (b < a)

/-- Whether the quadrant run from a fresh drawer succeeds. -/
def runOk (pageWidth pageHeight : ℚ) (counts : List ℤ) : Bool :=
  match Quadrant.run pageWidth pageHeight counts with
  | .ok _ => true
  | .error _ => false

/-- The document produced by the quadrant run from a fresh drawer
(empty on error). -/
def runDoc (pageWidth pageHeight : ℚ) (counts : List ℤ) : List Page :=
  match Quadrant.run pageWidth pageHeight counts with
  | .ok st => st.doc
  | .error _ => []

theorem modifyPage_length (l : List Page) (i : ℕ) (f : Page → Page) :
    (modifyPage l i f).length = l.length := by
  induction l generalizing i with
  | nil => rfl
  | cons p ps ih =>
    cases i with
    | zero => rfl
    | succ i => simp [modifyPage, ih]

theorem modifyPage_getD (l : List Page) (i : ℕ) (f : Page → Page)
    (d : Page) (h : i < l.length) :
    (modifyPage l i f).getD i d = f (l.getD i d) := by
  induction l generalizing i with
  | nil => simp at h
  | cons p ps ih =>
    cases i with
    | zero => rfl
    | succ i =>
      simp only [List.length_cons, Nat.succ_lt_succ_iff] at h
      simp only [modifyPage, List.getD_cons_succ]
      exact ih i h

theorem modifyPage_append (l : List Page) (a : Page) (f : Page → Page) :
    modifyPage (l ++ [a]) l.length f = l ++ [f a] := by
  induction l with
  | nil => rfl
  | cons p ps ih => simp [modifyPage, ih]

theorem getD_append_length (l : List Page) (a : Page) (d : Page) :
    (l ++ [a]).getD l.length d = a := by
  induction l with
  | nil => rfl
  | cons p ps ih =>
    simp only [List.cons_append, List.length_cons, List.getD_cons_succ]
    exact ih

/-- Reading a mapped range with `getD` evaluates the function. -/
theorem getD_map_range {α : Type} (f : ℕ → α) (d : α) (n k : ℕ)
    (h : k < n) : ((List.range n).map f).getD k d = f k := by
  induction n generalizing k with
  | zero => omega
  | succ n ih =>
    rcases Nat.lt_succ_iff_lt_or_eq.mp h with h' | h'
    · rw [List.range_succ, List.map_append]
      have hk : k < ((List.range n).map f).length := by simpa using h'
      rw [List.getD_append _ _ _ _ hk]
      exact ih k h'
    · subst h'
      rw [List.range_succ, List.map_append]
      have hl : ((List.range k).map f).length = k := by simp
      calc ((List.range k).map f ++ [f k]).getD k d
          = ((List.range k).map f ++ [f k]).getD ((List.range k).map f).length d := by
            rw [hl]
        _ = f k := by
            rcases hfk : (List.range k).map f with _ | _
            · simp [List.getD]
            · rw [List.getD_eq_getElem?_getD, List.getElem?_append_right (le_refl _)]
              simp

theorem sectionLines_length (x y w h : ℚ) (N : ℤ) :
    (sectionLines x y w h N).length = N.toNat := by
  simp [sectionLines]

theorem sectionLines_getD (x y w h : ℚ) (N : ℤ) (k : ℕ) (hk : k < N.toNat) :
    (sectionLines x y w h N).getD k emptyLine =
      if k % 2 = 0 then
        ⟨[4, 2, 1, 2], x + ((k : ℚ) + 1) * (w / ((N : ℚ) + 1)), y,
          x + ((k : ℚ) + 1) * (w / ((N : ℚ) + 1)), y + h, 0⟩
      else
        ⟨[4, 1], x + ((k : ℚ) + 1) * (w / ((N : ℚ) + 1)), y,
          x + ((k : ℚ) + 1) * (w / ((N : ℚ) + 1)), y + h, 0⟩ := by
  unfold sectionLines
  rw [getD_map_range _ _ _ k hk]

/-- Claim C1: for a section with line count `N ≥ 1`, origin `x`, width `w`,
the `k`-th drawn fold line (0-indexed, `k < N`) is a vertical segment at
x-position `x + (k + 1) * w / (N + 1)` spanning `y` to `y + h`. -/
theorem fold_line_position (x y w h : ℚ) (N : ℤ) (k : ℕ)
    (hN : 1 ≤ N) (hk : (k : ℤ) < N) :
    ((sectionLines x y w h N).getD k emptyLine).startX
        = x + ((k : ℚ) + 1) * w / ((N : ℚ) + 1) ∧
    ((sectionLines x y w h N).getD k emptyLine).endX
        = x + ((k : ℚ) + 1) * w / ((N : ℚ) + 1) ∧
    ((sectionLines x y w h N).getD k emptyLine).startY = y ∧
    ((sectionLines x y w h N).getD k emptyLine).endY = y + h := by
  have hk' : k < N.toNat := by omega
  rw [sectionLines_getD _ _ _ _ _ _ hk']
  by_cases hp : k % 2 = 0 <;> simp [hp, mul_div_assoc]

/-- Witness for C1 at `x = 0, y = 0, w = 4, h = 2, N = 1, k = 0`. -/
theorem fold_line_position_witness :
    ((sectionLines 0 0 4 2 1).getD 0 emptyLine).startX
      = 0 + (((0 : ℕ) : ℚ) + 1) * 4 / (((1 : ℤ) : ℚ) + 1) :=
  (fold_line_position 0 0 4 2 1 0 (by decide) (by decide)).1

/-- Claim C2: for `N ≥ 0`, a section with line count `N` emits exactly `N`
lines, and dash styles alternate by index parity: even index gets the
dash-dot pattern `[4, 2, 1, 2]` (mountain fold), odd index the dash
pattern `[4, 1]` (valley fold), starting with dash-dot at index 0. -/
theorem section_line_count_and_dash_alternation (x y w h : ℚ) (N : ℤ)
    (hN : 0 ≤ N) :
    ((sectionLines x y w h N).length : ℤ) = N ∧
    ∀ k : ℕ, k < (sectionLines x y w h N).length →
      ((sectionLines x y w h N).getD k emptyLine).dashArray
        = if k % 2 = 0 then [4, 2, 1, 2] else [4, 1] := by
  refine ⟨by rw [sectionLines_length]; omega, ?_⟩
  intro k hk
  rw [sectionLines_length] at hk
  rw [sectionLines_getD _ _ _ _ _ _ hk]
  by_cases hp : k % 2 = 0 <;> simp [hp]

/-- Witness for C2 at `N = 2`. -/
theorem section_line_count_witness :
    ((sectionLines 0 0 4 2 2).length : ℤ) = 2 ∧
    ∀ k : ℕ, k < (sectionLines 0 0 4 2 2).length →
      ((sectionLines 0 0 4 2 2).getD k emptyLine).dashArray
        = if k % 2 = 0 then [4, 2, 1, 2] else [4, 1] :=
  section_line_count_and_dash_alternation 0 0 4 2 2 (by decide)

/-- Claim C8: for width `w > 0` and count `N ≥ 0`, every drawn fold line
lies strictly inside the section horizontally: its x-position `lx`
satisfies `x < lx < x + w`, so no fold line coincides with the section's
left or right border. -/
theorem fold_lines_strictly_inside (x y w h : ℚ) (N : ℤ)
    (hw : 0 < w) (hN : 0 ≤ N) :
    ∀ l ∈ sectionLines x y w h N,
      x < l.startX ∧ l.startX < x + w ∧ l.endX = l.startX := by
  intro l hl
  unfold sectionLines at hl
  simp only [List.mem_map, List.mem_range] at hl
  obtain ⟨k, hk, rfl⟩ := hl
  have hN' : (0 : ℚ) ≤ (N : ℚ) := by exact_mod_cast hN
  have hNpos : (0 : ℚ) < (N : ℚ) + 1 := by linarith
  have hs : 0 < w / ((N : ℚ) + 1) := div_pos hw hNpos
  have hkN : ((k : ℚ) + 1) ≤ (N : ℚ) := by
    have : (k : ℤ) + 1 ≤ N := by omega
    exact_mod_cast this
  have hlow : 0 < ((k : ℚ) + 1) * (w / ((N : ℚ) + 1)) := by
    apply mul_pos _ hs
    positivity
  have hhigh : ((k : ℚ) + 1) * (w / ((N : ℚ) + 1)) < w := by
    have h2 : ((k : ℚ) + 1) * (w / ((N : ℚ) + 1))
        < ((N : ℚ) + 1) * (w / ((N : ℚ) + 1)) := by
      apply mul_lt_mul_of_pos_right _ hs
      linarith
    have h3 : ((N : ℚ) + 1) * (w / ((N : ℚ) + 1)) = w := by
      field_simp
    linarith
  by_cases hp : k % 2 = 0 <;>
    simp only [hp, if_true, if_false, reduceIte] <;>
    exact ⟨by linarith, by linarith, trivial⟩

/-- Witness for C8 at `w = 4 > 0, N = 2`, instantiated at the first drawn
line. -/
theorem fold_lines_strictly_inside_witness :
    0 < ((sectionLines 0 0 4 2 2).get
        ⟨0, by rw [sectionLines_length]; decide⟩).startX ∧
    ((sectionLines 0 0 4 2 2).get
        ⟨0, by rw [sectionLines_length]; decide⟩).startX < 0 + 4 :=
  ⟨(fold_lines_strictly_inside 0 0 4 2 2 (by decide) (by decide) _
      (List.get_mem _ _ _)).1,
   (fold_lines_strictly_inside 0 0 4 2 2 (by decide) (by decide) _
      (List.get_mem _ _ _)).2.1⟩

/-- Claim C10: for every `numCenterLines ≤ 0` (including negative values),
`drawSection` emits no lines and leaves the page unchanged; in particular
no error occurs (the `lineSpacing` division is computed but unused, even
at `numCenterLines = -1` where the divisor is 0). -/
theorem nonpositive_count_draws_nothing (x y w h : ℚ) (N : ℤ) (p : Page)
    (hN : N ≤ 0) :
    drawSection x y w h N p = p ∧ sectionLines x y w h N = [] := by
  have h0 : N.toNat = 0 := by omega
  have hsec : sectionLines x y w h N = [] := by
    simp [sectionLines, h0]
  refine ⟨?_, hsec⟩
  cases p with
  | mk pw ph pc => simp [drawSection, hsec]

/-- Witness for C10 at `N = -1` (divisor `N + 1 = 0`). -/
theorem nonpositive_count_witness :
    drawSection 3 4 5 6 (-1) ⟨5, 6, []⟩ = ⟨5, 6, []⟩ ∧
    sectionLines 3 4 5 6 (-1) = [] :=
  nonpositive_count_draws_nothing 3 4 5 6 (-1) ⟨5, 6, []⟩ (by decide)

namespace Quadrant

theorem drawNextSection_spec (W H : ℚ) (n : ℤ) (st : DrawerState)
    (hinv : Inv st) :
    ∃ st', drawNextSection W H n st = .ok st' ∧ Inv st' ∧
      st'.currentSectionIndex = st.currentSectionIndex + 1 ∧
      st'.doc.length = st.doc.length
          + (if st.currentSectionIndex % 4 = 0 then 1 else 0) ∧
      ∃ p, st'.currentPage = some p ∧ p < st'.doc.length ∧
        st'.doc.getD p emptyPage =
          drawSection (specQuadOrigin W H (st.currentSectionIndex % 4)).1
            (specQuadOrigin W H (st.currentSectionIndex % 4)).2
            (W / 2) (H / 2) n
            (if st.currentSectionIndex % 4 = 0 then createSectionedPage W H
             else st.doc.getD p emptyPage) ∧
        (st.currentSectionIndex % 4 = 0 → p = st.doc.length) ∧
        (st.currentSectionIndex % 4 ≠ 0 → st.currentPage = some p) := by
  obtain ⟨h1, h2⟩ := hinv
  have hmod : st.currentSectionIndex % 4 < 4 := Nat.mod_lt _ (by norm_num)
  rcases h4 : st.currentSectionIndex % 4 with _ | _ | _ | _ | m
  · -- case 0: allocate a page and draw top-left
    refine ⟨⟨st.doc ++ [drawSection 0 (H/2) (W/2) (H/2) n
        (createSectionedPage W H)], st.currentSectionIndex + 1,
        some st.doc.length⟩, ?_, ?_, rfl, ?_, st.doc.length, rfl, ?_, ?_, ?_, ?_⟩
    · simp only [drawNextSection, h4, finishSection, modifyPage_append]
    · refine ⟨fun hc => by simp at hc, fun p hp => ?_⟩
      simp only [Option.some.injEq] at hp
      simp [← hp]
    · simp
    · simp
    · rw [getD_append_length]
      rfl
    · intro; rfl
    · intro hne; exact absurd rfl hne
  · -- case 1: top-right on the existing page
    rcases hcp : st.currentPage with _ | p
    · exact absurd (h1 hcp) (by omega)
    have hp := h2 p hcp
    refine ⟨⟨modifyPage st.doc p
        (drawSection (W/2) (H/2) (W/2) (H/2) n),
        st.currentSectionIndex + 1, some p⟩, ?_, ?_, rfl, ?_, p, rfl, ?_, ?_, ?_, ?_⟩
    · simp only [drawNextSection, h4, hcp, finishSection]
    · refine ⟨fun hc => by simp at hc, fun q hq => ?_⟩
      simp only [Option.some.injEq] at hq
      simp [← hq, modifyPage_length, hp]
    · simp [modifyPage_length]
    · simp [modifyPage_length, hp]
    · rw [modifyPage_getD _ _ _ _ hp]
      rfl
    · intro h0; omega
    · intro; rfl
  · -- case 2: bottom-left on the existing page
    rcases hcp : st.currentPage with _ | p
    · exact absurd (h1 hcp) (by omega)
    have hp := h2 p hcp
    refine ⟨⟨modifyPage st.doc p (drawSection 0 0 (W/2) (H/2) n),
        st.currentSectionIndex + 1, some p⟩, ?_, ?_, rfl, ?_, p, rfl, ?_, ?_, ?_, ?_⟩
    · simp only [drawNextSection, h4, hcp, finishSection]
    · refine ⟨fun hc => by simp at hc, fun q hq => ?_⟩
      simp only [Option.some.injEq] at hq
      simp [← hq, modifyPage_length, hp]
    · simp [modifyPage_length]
    · simp [modifyPage_length, hp]
    · rw [modifyPage_getD _ _ _ _ hp]
      rfl
    · intro h0; omega
    · intro; rfl
  · -- case 3: bottom-right on the existing page
    rcases hcp : st.currentPage with _ | p
    · exact absurd (h1 hcp) (by omega)
    have hp := h2 p hcp
    refine ⟨⟨modifyPage st.doc p (drawSection (W/2) 0 (W/2) (H/2) n),
        st.currentSectionIndex + 1, some p⟩, ?_, ?_, rfl, ?_, p, rfl, ?_, ?_, ?_, ?_⟩
    · simp only [drawNextSection, h4, hcp, finishSection]
    · refine ⟨fun hc => by simp at hc, fun q hq => ?_⟩
      simp only [Option.some.injEq] at hq
      simp [← hq, modifyPage_length, hp]
    · simp [modifyPage_length]
    · simp [modifyPage_length, hp]
    · rw [modifyPage_getD _ _ _ _ hp]
      rfl
    · intro h0; omega
    · intro; rfl
  · omega

theorem inv_init : Inv initState := by
  constructor
  · intro; rfl
  · intro p hp; cases hp

theorem runFrom_inv (W H : ℚ) (counts : List ℤ) (st : DrawerState)
    (hinv : Inv st) :
    ∃ st', runFrom W H counts st = .ok st' ∧ Inv st' := by
  induction counts generalizing st with
  | nil => exact ⟨st, rfl, hinv⟩
  | cons n ns ih =>
    obtain ⟨st', hstep, hinv', -⟩ := drawNextSection_spec W H n st hinv
    obtain ⟨st'', hrun, hinv''⟩ := ih st' hinv'
    refine ⟨st'', ?_, hinv''⟩
    simp only [runFrom, hstep, hrun]

theorem reachable_inv (W H : ℚ) (st : DrawerState)
    (h : Reachable W H st) : Inv st := by
  obtain ⟨counts, hrun⟩ := h
  obtain ⟨st', hrun', hinv'⟩ := runFrom_inv W H counts initState inv_init
  rw [run] at hrun
  rw [hrun'] at hrun
  injection hrun with heq
  exact heq ▸ hinv'

/-- Claim C7: the two fatal error branches of the quadrant drawer are
unreachable: starting from a fresh drawer, every sequence of
`drawNextSection` calls succeeds, so the switch default
("No case found for page section") and the missing-page guard
("Current page is undefined") never fire. -/
theorem quadrant_errors_unreachable (W H : ℚ) (counts : List ℤ) :
    ∃ st, run W H counts = .ok st := by
  obtain ⟨st, hrun, -⟩ := runFrom_inv W H counts initState inv_init
  exact ⟨st, hrun⟩

/-- Claim C3: in quadrant mode, on the call with running section index
`i = st.currentSectionIndex` from a reachable state, a new page is
allocated iff `i % 4 = 0`, and the section is drawn with origin given by
the mapping `{0 : (0, H/2), 1 : (W/2, H/2), 2 : (0, 0), 3 : (W/2, 0)}`
into a region of size `W/2 × H/2`. -/
theorem quadrant_placement (W H : ℚ) (n : ℤ) (st : DrawerState)
    (h : Reachable W H st) :
    ∃ st', drawNextSection W H n st = .ok st' ∧
      (st'.doc.length = st.doc.length + 1 ↔
        st.currentSectionIndex % 4 = 0) ∧
      ∃ p, st'.currentPage = some p ∧ p < st'.doc.length ∧
        st'.doc.getD p emptyPage =
          drawSection (specQuadOrigin W H (st.currentSectionIndex % 4)).1
            (specQuadOrigin W H (st.currentSectionIndex % 4)).2
            (W / 2) (H / 2) n
            (if st.currentSectionIndex % 4 = 0 then createSectionedPage W H
             else st.doc.getD p emptyPage) := by
  have hinv := reachable_inv W H st h
  obtain ⟨st', hstep, -, -, hlen, p, hp1, hp2, hp3, -, -⟩ :=
    drawNextSection_spec W H n st hinv
  refine ⟨st', hstep, ?_, p, hp1, hp2, hp3⟩
  by_cases h0 : st.currentSectionIndex % 4 = 0
  · simp only [h0, if_true, reduceIte] at hlen
    simp [hlen, h0]
  · simp only [h0, if_false, reduceIte] at hlen
    constructor
    · intro hl; omega
    · intro hc; exact absurd hc h0

/-- Witness for C3 at the fresh state and `W = 816, H = 1054, n = 1`. -/
theorem quadrant_placement_witness :
    ∃ st', drawNextSection 816 1054 1 initState = .ok st' ∧
      (st'.doc.length = initState.doc.length + 1 ↔
        initState.currentSectionIndex % 4 = 0) ∧
      ∃ p, st'.currentPage = some p ∧ p < st'.doc.length ∧
        st'.doc.getD p emptyPage =
          drawSection
            (specQuadOrigin 816 1054 (initState.currentSectionIndex % 4)).1
            (specQuadOrigin 816 1054 (initState.currentSectionIndex % 4)).2
            (816 / 2) (1054 / 2) 1
            (if initState.currentSectionIndex % 4 = 0 then
              createSectionedPage 816 1054
             else initState.doc.getD p emptyPage) :=
  quadrant_placement 816 1054 1 initState ⟨[], rfl⟩

end Quadrant

namespace FullPage

/-- Claim C9: in full-page mode, every `drawNextSection` call allocates
exactly one new page sized `pageWidth × pageHeight` and draws its fold
lines into a region with origin `(0, 0)` and the full page width and
height. -/
theorem fullpage_each_call_new_page (W H : ℚ) (n : ℤ) (st : DrawerState) :
    ∃ pg, drawNextSection W H n st = .ok ⟨st.doc ++ [pg], some st.doc.length⟩ ∧
      pg.width = W ∧ pg.height = H ∧
      pg.content = (createSectionedPage W H).content ++ sectionLines 0 0 W H n := by
  refine ⟨drawSection 0 0 W H n (createSectionedPage W H), ?_, rfl, rfl, rfl⟩
  simp only [drawNextSection, modifyPage_append]

end FullPage

/-- With a nonpositive step and a nonempty range the loop never
terminates. -/
theorem expandRangeFuel_nonpos_step (fuel : ℕ) (cur maxN step : ℤ)
    (hs : step ≤ 0) (hc : cur ≤ maxN) :
    expandRangeFuel fuel cur maxN step = none := by
  induction fuel generalizing cur with
  | zero => rfl
  | succ fuel ih =>
    have hc' : cur + step ≤ maxN := by omega
    simp only [expandRangeFuel, if_pos hc, ih (cur + step) hc']

theorem specRange_cons (minN maxN step : ℤ) (hs : 1 ≤ step)
    (hle : minN ≤ maxN) :
    specRange minN maxN step = minN :: specRange (minN + step) maxN step := by
  have hstep0 : step ≠ 0 := by omega
  by_cases h2 : maxN < minN + step
  · -- a single term remains
    have hdiv : (maxN - minN) / step = 0 :=
      Int.ediv_eq_zero_of_lt (by omega) (by omega)
    rw [specRange, if_neg (by omega), specRange, if_pos h2, hdiv]
    show List.map (fun (k : ℕ) => minN + (k : ℤ) * step) (List.range (1 : ℤ).toNat) = [minN]
    rw [show ((1 : ℤ).toNat) = 1 from rfl,
      show List.range 1 = [0] from rfl, List.map_singleton]
    simp
  · -- at least two terms remain
    have hdiv : (maxN - (minN + step)) / step = (maxN - minN) / step - 1 := by
      have h1 := Int.add_mul_ediv_right (maxN - minN - step) 1 hstep0
      have harg : maxN - minN - step + 1 * step = maxN - minN := by ring
      rw [harg] at h1
      have harg2 : maxN - (minN + step) = maxN - minN - step := by ring
      rw [harg2]
      omega
    have hpos : 1 ≤ (maxN - minN) / step := by
      have h0 : (0:ℤ) ≤ (maxN - (minN + step)) / step :=
        Int.ediv_nonneg (by omega) (by omega)
      omega
    rw [specRange, if_neg (by omega), specRange, if_neg (by omega), hdiv]
    have htn : ((maxN - minN) / step + 1).toNat
        = ((maxN - minN) / step - 1 + 1).toNat + 1 := by omega
    rw [htn, List.range_succ_eq_map, List.map_cons, List.map_map]
    have hhead : minN + ((0 : ℕ) : ℤ) * step = minN := by simp
    rw [hhead]
    congr 1
    apply List.map_congr_left
    intro a ha
    simp only [Function.comp_apply]
    push_cast
    ring

/-- Whenever the range loop terminates, its output is the spec's
arithmetic progression. -/
theorem expandRangeFuel_eq_specRange (fuel : ℕ) (minN maxN step : ℤ)
    (l : List ℤ) (h : expandRangeFuel fuel minN maxN step = some l) :
    l = specRange minN maxN step := by
  induction fuel generalizing minN l with
  | zero => cases h
  | succ fuel ih =>
    by_cases hc : minN ≤ maxN
    · rw [expandRangeFuel, if_pos hc] at h
      rcases hrec : expandRangeFuel fuel (minN + step) maxN step with _ | l'
      · rw [hrec] at h; cases h
      · rw [hrec] at h
        injection h with h
        subst h
        have hs : 1 ≤ step := by
          by_contra hs'
          rw [expandRangeFuel_nonpos_step fuel (minN + step) maxN step
            (by omega) (by omega)] at hrec
          cases hrec
        rw [specRange_cons minN maxN step hs hc]
        rw [ih (minN + step) l' hrec]
    · rw [expandRangeFuel, if_neg hc] at h
      injection h with h
      subst h
      rw [specRange, if_pos (by omega)]

theorem expandRangeFuel_stop (fuel : ℕ) (cur maxN step : ℤ)
    (h : maxN < cur) :
    expandRangeFuel (fuel + 1) cur maxN step = some [] := by
  rw [expandRangeFuel, if_neg (by omega)]

/-- Claim C4: whenever the driver's range loop for
`{minN, maxN, step}` produces a count sequence, that sequence equals the
arithmetic progression `[minN, minN + step, ...]` truncated at the last
value `≤ maxN`, in order; and when `minN > maxN` it produces the empty
sequence. -/
theorem range_expansion_matches_progression (minN maxN step : ℤ) :
    (∀ l, RangeExpands minN maxN step l → l = specRange minN maxN step) ∧
    (maxN < minN → RangeExpands minN maxN step []) := by
  constructor
  · rintro l ⟨fuel, h⟩
    exact expandRangeFuel_eq_specRange fuel minN maxN step l h
  · intro h
    exact ⟨0 + 1, expandRangeFuel_stop 0 minN maxN step h⟩

/-- Witness for C4 at the range `{3, 11, 2}` from the embedded
configuration. -/
theorem range_expansion_witness :
    [3, 5, 7, 9, 11] = specRange 3 11 2 :=
  (range_expansion_matches_progression 3 11 2).1 [3, 5, 7, 9, 11]
    ⟨6, by decide⟩

/-- Claim C6 counterexample: the configuration consisting of the single
range `{minNumLines 0, maxNumLines 0, skipInterval 0}` never finishes
expanding (the driver's loop `for (n = 0; n <= 0; n += 0)` runs
forever), so the expansion does not terminate for every configuration
with arbitrary integer fields. -/
theorem expansion_nontermination_counterexample :
    ¬ ∃ l, ConfigExpands [CenterLineSection.range 0 0 0] l := by
  rintro ⟨l, fuel, h⟩
  have h0 : expandRangeFuel fuel 0 0 0 = none :=
    expandRangeFuel_nonpos_step fuel 0 0 0 (by omega) (by omega)
  simp only [expandConfigFuel, expandSectionFuel, h0] at h
  exact Option.noConfusion h

/-- With positive step the range loop terminates once the fuel exceeds
the range length. -/
theorem expandRangeFuel_terminates (maxN step : ℤ) (hs : 1 ≤ step) :
    ∀ (fuel : ℕ) (cur : ℤ),
      (maxN - cur).toNat + 2 ≤ fuel ∨ (maxN < cur ∧ 1 ≤ fuel) →
      ∃ l, expandRangeFuel fuel cur maxN step = some l := by
  intro fuel
  induction fuel with
  | zero => intro cur h; omega
  | succ fuel ih =>
    intro cur h
    by_cases hc : cur ≤ maxN
    · obtain ⟨l, hl⟩ := ih (cur + step) (by omega)
      exact ⟨cur :: l, by rw [expandRangeFuel, if_pos hc, hl]⟩
    · exact ⟨[], by rw [expandRangeFuel, if_neg hc]⟩

theorem expandRangeFuel_mono (fuel fuel' : ℕ) (cur maxN step : ℤ)
    (l : List ℤ) (h : expandRangeFuel fuel cur maxN step = some l)
    (hf : fuel ≤ fuel') :
    expandRangeFuel fuel' cur maxN step = some l := by
  induction fuel generalizing fuel' cur l with
  | zero => cases h
  | succ fuel ih =>
    obtain ⟨fuel'', rfl⟩ : ∃ f, fuel' = f + 1 := ⟨fuel' - 1, by omega⟩
    by_cases hc : cur ≤ maxN
    · rw [expandRangeFuel, if_pos hc] at h ⊢
      rcases hrec : expandRangeFuel fuel (cur + step) maxN step with _ | l'
      · rw [hrec] at h; cases h
      · rw [hrec] at h
        rw [ih fuel'' (cur + step) l' hrec (by omega)]
        exact h
    · rw [expandRangeFuel, if_neg hc] at h ⊢
      exact h

theorem expandSectionFuel_mono (fuel fuel' : ℕ) (s : CenterLineSection)
    (l : List ℤ) (h : expandSectionFuel fuel s = some l)
    (hf : fuel ≤ fuel') :
    expandSectionFuel fuel' s = some l := by
  cases s with
  | numLines n => exact h
  | range a b st => exact expandRangeFuel_mono fuel fuel' a b st l h hf

theorem expandConfigFuel_mono (fuel fuel' : ℕ)
    (cfg : List CenterLineSection) (l : List ℤ)
    (h : expandConfigFuel fuel cfg = some l) (hf : fuel ≤ fuel') :
    expandConfigFuel fuel' cfg = some l := by
  induction cfg generalizing l with
  | nil => exact h
  | cons s rest ih =>
    rw [expandConfigFuel] at h ⊢
    rcases hs : expandSectionFuel fuel s with _ | ls <;>
      rcases hr : expandConfigFuel fuel rest with _ | ls2 <;>
        rw [hs, hr] at h <;> try cases h
    rw [expandSectionFuel_mono fuel fuel' s ls hs hf, ih ls2 hr]

/-- Claim C6 (amended): for every configuration in which each range entry
has a positive `skipInterval` or `minNumLines > maxNumLines`, the
expansion terminates and produces a finite count sequence. -/
theorem config_expansion_terminates (cfg : List CenterLineSection)
    (h : ∀ s ∈ cfg, sectionWellFormed s = true) :
    ∃ l, ConfigExpands cfg l := by
  induction cfg with
  | nil => exact ⟨[], 0, rfl⟩
  | cons s rest ih =>
    obtain ⟨l2, fuel2, h2⟩ := ih fun t ht => h t (List.mem_cons_of_mem s ht)
    have hs := h s (List.mem_cons_self s rest)
    have hhead : ∃ fuel1 l1, expandSectionFuel fuel1 s = some l1 := by
      cases s with
      | numLines n => exact ⟨0, [n], rfl⟩
      | range a b st =>
        simp only [sectionWellFormed, Bool.or_eq_true,
          decide_eq_true_eq] at hs
        rcases hs with hs | hs
        · obtain ⟨l1, hl1⟩ :=
            expandRangeFuel_terminates b st hs ((b - a).toNat + 2) a
              (by omega)
          exact ⟨(b - a).toNat + 2, l1, hl1⟩
        · exact ⟨0 + 1, [], expandRangeFuel_stop 0 a b st hs⟩
    obtain ⟨fuel1, l1, h1⟩ := hhead
    refine ⟨l1 ++ l2, max fuel1 fuel2, ?_⟩
    rw [expandConfigFuel,
      expandSectionFuel_mono fuel1 _ s l1 h1 (le_max_left _ _),
      expandConfigFuel_mono fuel2 _ rest l2 h2 (le_max_right _ _)]

/-- Witness for the amended C6 at the quadrant variant's embedded
configuration. -/
theorem config_expansion_terminates_witness :
    ∃ l, ConfigExpands
      [CenterLineSection.range 3 11 2, CenterLineSection.range 15 23 4,
       CenterLineSection.numLines 31, CenterLineSection.numLines 39,
       CenterLineSection.numLines 51, CenterLineSection.numLines 65] l :=
  config_expansion_terminates _ (by decide)

/-- Claim C5 counterexample: running quadrant mode on the configuration
`[{numLines: 3}, {numLines: 5}]` with page size 816 × 1054, the first
top-left fold line (the 7th drawn line, after the six cut lines) sits at
`x = 102`, not at `x = 204 * 1 / 4 = 51` as the claim's formula
`x = 204k/4` demands at `k = 1`. -/
theorem quadrant_example_counterexample :
    runOk 816 1054 [3, 5] = true ∧
    (((runDoc 816 1054 [3, 5]).getD 0 emptyPage).content.getD 6
        emptyLine).startX = 102 ∧
    ¬ (((runDoc 816 1054 [3, 5]).getD 0 emptyPage).content.getD 6
        emptyLine).startX = 204 * 1 / 4 := by
  refine ⟨?_, ?_, ?_⟩ <;>
    norm_num [runOk, runDoc, Quadrant.run, Quadrant.runFrom,
      Quadrant.drawNextSection, Quadrant.finishSection,
      Quadrant.createSectionedPage, Quadrant.initState, modifyPage,
      drawSection, sectionLines, drawCutLine, emptyPage, emptyLine,
      (show ((3 : ℤ).toNat) = 3 from rfl),
      (show ((5 : ℤ).toNat) = 5 from rfl), List.range_succ]

/-- Claim C5 (amended): quadrant mode on the configuration
`[{numLines: 3}, {numLines: 5}]` with pageWidth 816 and pageHeight 1054
succeeds and produces exactly 1 page carrying 6 cut lines followed by
3 + 5 fold lines: the top-left quadrant holds 3 fold lines at
`x = 408k/4` for k = 1..3 and the top-right quadrant holds 5 fold lines
at `x = 408 + 408k/6` for k = 1..5, each spanning the top half
(y from 527 to 1054); the bottom two quadrants receive no fold lines. -/
theorem quadrant_example_end_to_end :
    expandConfigFuel 1
        [CenterLineSection.numLines 3, CenterLineSection.numLines 5]
      = some [3, 5] ∧
    runOk 816 1054 [3, 5] = true ∧
    (runDoc 816 1054 [3, 5]).length = 1 ∧
    ((runDoc 816 1054 [3, 5]).getD 0 emptyPage).content.length
      = 6 + 3 + 5 ∧
    (((runDoc 816 1054 [3, 5]).getD 0 emptyPage).content.drop 6).map
        (fun (l : Line) => (l.startX, l.startY, l.endX, l.endY)) =
      [(408 * 1 / 4, 527, 408 * 1 / 4, 1054),
       (408 * 2 / 4, 527, 408 * 2 / 4, 1054),
       (408 * 3 / 4, 527, 408 * 3 / 4, 1054),
       (408 + 408 * 1 / 6, 527, 408 + 408 * 1 / 6, 1054),
       (408 + 408 * 2 / 6, 527, 408 + 408 * 2 / 6, 1054),
       (408 + 408 * 3 / 6, 527, 408 + 408 * 3 / 6, 1054),
       (408 + 408 * 4 / 6, 527, 408 + 408 * 4 / 6, 1054),
       (408 + 408 * 5 / 6, 527, 408 + 408 * 5 / 6, 1054)] := by
  refine ⟨by decide, ?_, ?_, ?_, ?_⟩ <;>
    norm_num [runOk, runDoc, Quadrant.run, Quadrant.runFrom,
      Quadrant.drawNextSection, Quadrant.finishSection,
      Quadrant.createSectionedPage, Quadrant.initState, modifyPage,
      drawSection, sectionLines, drawCutLine, emptyPage, emptyLine,
      (show ((3 : ℤ).toNat) = 3 from rfl),
      (show ((5 : ℤ).toNat) = 5 from rfl), List.range_succ]

end LinesGen
